import Mathlib

/-!
# Verification of `set-filter` (src/main.rs)

A shallow embedding of the line-filtering logic of the `set-filter`
command-line tool.  An input text is modelled as its sequence of lines,
`List String`; equality of lines is `String` equality (exact content
equality, as for Rust `&str`).

A `hashbrown::HashSet<&str>` is modelled as the list of its elements in
first-insertion order (`uniqueLines`), since inserting every line of a text
keeps exactly the first occurrence of each distinct line.  The hash set's
iteration order is implementation defined, so wherever the program iterates
a set (`print_difference`, `print_intersection`) the model takes an
explicit iteration function `iter`; the faithfulness hypothesis is that
`iter s` is a permutation of the set's contents `s`.  Order-independent
(set / multiplicity) claims are proved for every such `iter`.

Fallible I/O is modelled with `Except IOError`: the environment `Env`
supplies the outcome of reading a named file, reading stdin, and writing a
list of lines to stdout, mirroring `fs::read_to_string`, `read_to_string`
on stdin, and the `format` helper's `writeln!` loop.
-/

namespace SetFilter

/-- One scanning step of `print_unique` (non-reverse): Rust keeps a set `a`
and emits a line exactly when `a.insert(value)` returns `true`, i.e. when
the line was not already in `a`.  `seen` is the contents of `a`. -/
def uniqueAux (seen : List String) : List String → List String
  | [] => []
  | l :: ls => if l ∈ seen then uniqueAux seen ls else l :: uniqueAux (l :: seen) ls

/-- Model of `print_unique` without `--reverse`: first occurrences, in input order. -/
def uniqueLines (ls : List String) : List String := uniqueAux [] ls

/-- One scanning step of `print_unique --reverse`: Rust keeps two sets and
emits a line exactly when `!a.insert(value) && b.insert(value)`, i.e. the
line is already in `a` (seen before) and not yet in `b` (not yet emitted).
`a.insert` is evaluated on every line; `b.insert` only when the line was
already in `a`, by `&&` short-circuiting. -/
def reverseAux (a b : List String) : List String → List String
  | [] => []
  | l :: ls =>
    if l ∈ a then
      if l ∈ b then reverseAux a b ls
      else l :: reverseAux a (l :: b) ls
    else reverseAux (l :: a) b ls

/-- Model of `print_unique` with `--reverse`: each repeated line, once, at its
second occurrence. -/
def reverseLines (ls : List String) : List String := reverseAux [] [] ls

/-- Model of `print_difference`: collect base text into set `a` and comparison text
into set `b`, then print `a.difference(&b)`.  The set `a`'s contents are
`uniqueLines A`; `iter` is the hash set's iteration order; membership in
`b` coincides with membership in the comparison line list. -/
def diffLines (iter : List String → List String) (A B : List String) : List String :=
  (iter (uniqueLines A)).filter fun x => decide (x ∉ B)

/-- Model of `print_intersection`: as `diffLines` but printing `a.intersection(&b)`. -/
def interLines (iter : List String → List String) (A B : List String) : List String :=
  (iter (uniqueLines A)).filter fun x => decide (x ∈ B)

/-- Spec-side definition, from the spec's words: scanning the input left to
right with `pre` the lines already scanned, a line is emitted exactly when
it is its own first occurrence, i.e. it does not occur among the earlier
input lines. -/
def specUniqueFrom (pre : List String) : List String → List String
  | [] => []
  | l :: ls =>
    if l ∈ pre then specUniqueFrom (pre ++ [l]) ls
    else l :: specUniqueFrom (pre ++ [l]) ls

/-- Spec-side: the subsequence of first occurrences, in input order. -/
def specUnique (ls : List String) : List String := specUniqueFrom [] ls

/-- Spec-side definition, from the spec's words: a line is emitted exactly
at the position where it is seen for the second time, i.e. where its count
in the input up to and including that position equals `2`. -/
def specReverseFrom (pre : List String) : List String → List String
  | [] => []
  | l :: ls =>
    if (pre ++ [l]).count l = 2 then l :: specReverseFrom (pre ++ [l]) ls
    else specReverseFrom (pre ++ [l]) ls

/-- Spec-side: repeated lines, each at its second occurrence. -/
def specReverse (ls : List String) : List String := specReverseFrom [] ls

/-! ## Lemmas about the unique filter -/

theorem count_append_singleton (pre : List String) (l x : String) :
    (pre ++ [l]).count x = pre.count x + if x = l then 1 else 0 := by
  simp only [List.count_append, List.count_cons, List.count_nil, beq_iff_eq, Nat.zero_add]
  exact congrArg (pre.count x + ·) (if_congr eq_comm rfl rfl)

theorem uniqueAux_eq_specUniqueFrom :
    ∀ (ls seen pre : List String), (∀ x, x ∈ seen ↔ x ∈ pre) →
      uniqueAux seen ls = specUniqueFrom pre ls
  | [], _, _, _ => rfl
  | l :: ls, seen, pre, h => by
    rw [uniqueAux, specUniqueFrom]
    by_cases hl : l ∈ pre
    · rw [if_pos ((h l).mpr hl), if_pos hl]
      refine uniqueAux_eq_specUniqueFrom ls seen (pre ++ [l]) fun x => ?_
      simp only [List.mem_append, List.mem_singleton, h x]
      constructor
      · exact Or.inl
      · rintro (hx | rfl)
        · exact hx
        · exact hl
    · rw [if_neg (fun hx => hl ((h l).mp hx)), if_neg hl]
      refine congrArg (l :: ·) (uniqueAux_eq_specUniqueFrom ls (l :: seen) (pre ++ [l]) fun x => ?_)
      simp only [List.mem_cons, List.mem_append, List.mem_singleton, h x]
      tauto

theorem count_specUniqueFrom :
    ∀ (ls pre : List String) (x : String),
      (specUniqueFrom pre ls).count x = if x ∉ pre ∧ x ∈ ls then 1 else 0
  | [], pre, x => by simp [specUniqueFrom]
  | l :: ls, pre, x => by
    rw [specUniqueFrom]
    by_cases hl : l ∈ pre
    · rw [if_pos hl, count_specUniqueFrom ls (pre ++ [l]) x]
      by_cases hx : x = l
      · subst hx; simp [hl]
      · simp only [List.mem_append, List.mem_singleton, List.mem_cons, hx, or_false, false_or,
          List.mem_nil_iff]
    · rw [if_neg hl, List.count_cons, count_specUniqueFrom ls (pre ++ [l]) x]
      by_cases hx : x = l
      · subst hx
        simp [hl, List.mem_append]
      · simp only [List.mem_append, List.mem_singleton, List.mem_cons, hx, beq_iff_eq]
        have : ((x ∉ pre ∧ ¬(x = l)) ∧ x ∈ ls) ↔ (x ∉ pre ∧ x ∈ ls) := by tauto
        split_ifs <;> simp_all

theorem uniqueAux_sublist : ∀ (ls seen : List String), List.Sublist (uniqueAux seen ls) ls
  | [], _ => List.Sublist.refl _
  | l :: ls, seen => by
    rw [uniqueAux]
    by_cases hl : l ∈ seen
    · rw [if_pos hl]
      exact (uniqueAux_sublist ls seen).cons l
    · rw [if_neg hl]
      exact (uniqueAux_sublist ls (l :: seen)).cons₂ l

theorem count_uniqueLines (ls : List String) (x : String) :
    (uniqueLines ls).count x = if x ∈ ls then 1 else 0 := by
  rw [uniqueLines, uniqueAux_eq_specUniqueFrom ls [] [] (fun _ => Iff.rfl),
    count_specUniqueFrom]
  simp

theorem nodup_uniqueLines (ls : List String) : (uniqueLines ls).Nodup := by
  rw [List.nodup_iff_count_le_one]
  intro x
  rw [count_uniqueLines]
  split_ifs <;> omega

theorem mem_uniqueLines (ls : List String) (x : String) :
    x ∈ uniqueLines ls ↔ x ∈ ls := by
  rw [← List.count_pos_iff, ← List.count_pos_iff (l := ls), count_uniqueLines]
  split_ifs with h <;> simp [h]

theorem uniqueAux_of_nodup :
    ∀ (ls seen : List String), ls.Nodup → (∀ x ∈ ls, x ∉ seen) → uniqueAux seen ls = ls
  | [], _, _, _ => rfl
  | l :: ls, seen, hnd, hdisj => by
    rw [uniqueAux, if_neg (hdisj l (List.mem_cons_self l ls))]
    refine congrArg (l :: ·) (uniqueAux_of_nodup ls (l :: seen) (List.Nodup.of_cons hnd) ?_)
    intro x hx
    simp only [List.mem_cons, not_or]
    exact ⟨fun he => (List.nodup_cons.mp hnd).1 (he ▸ hx), hdisj x (List.mem_cons_of_mem l hx)⟩

/-! ## Lemmas about the reverse filter -/

theorem set_invariant_keep {s pre : List String} {l : String} {k : Nat}
    (h : ∀ x, x ∈ s ↔ k ≤ pre.count x) (hl : pre.count l + 1 ≠ k) (x : String) :
    x ∈ s ↔ k ≤ (pre ++ [l]).count x := by
  rw [count_append_singleton, h x]
  rcases eq_or_ne x l with rfl | hx
  · rw [if_pos rfl]
    constructor <;> intro <;> omega
  · rw [if_neg hx, Nat.add_zero]

theorem set_invariant_insert {s pre : List String} {l : String} {k : Nat}
    (h : ∀ x, x ∈ s ↔ k ≤ pre.count x) (hl : pre.count l + 1 = k) (x : String) :
    x ∈ l :: s ↔ k ≤ (pre ++ [l]).count x := by
  rw [count_append_singleton, List.mem_cons, h x]
  rcases eq_or_ne x l with rfl | hx
  · rw [if_pos rfl]
    exact iff_of_true (Or.inl rfl) (by omega)
  · rw [if_neg hx, Nat.add_zero]
    constructor
    · rintro (rfl | hc)
      · exact absurd rfl hx
      · exact hc
    · exact Or.inr

theorem reverseAux_eq_specReverseFrom :
    ∀ (ls a b pre : List String),
      (∀ x, x ∈ a ↔ 1 ≤ pre.count x) → (∀ x, x ∈ b ↔ 2 ≤ pre.count x) →
      reverseAux a b ls = specReverseFrom pre ls
  | [], _, _, _, _, _ => rfl
  | l :: ls, a, b, pre, ha, hb => by
    rw [reverseAux, specReverseFrom, count_append_singleton, if_pos rfl]
    by_cases hla : l ∈ a
    · have hc1 : 1 ≤ pre.count l := (ha l).mp hla
      rw [if_pos hla]
      by_cases hlb : l ∈ b
      · have hc2 : 2 ≤ pre.count l := (hb l).mp hlb
        rw [if_pos hlb, if_neg (by omega)]
        exact reverseAux_eq_specReverseFrom ls a b (pre ++ [l])
          (set_invariant_keep ha (by omega)) (set_invariant_keep hb (by omega))
      · have hc2 : ¬ 2 ≤ pre.count l := fun h => hlb ((hb l).mpr h)
        rw [if_neg hlb, if_pos (by omega)]
        exact congrArg (l :: ·) (reverseAux_eq_specReverseFrom ls a (l :: b) (pre ++ [l])
          (set_invariant_keep ha (by omega)) (set_invariant_insert hb (by omega)))
    · have hc1 : ¬ 1 ≤ pre.count l := fun h => hla ((ha l).mpr h)
      rw [if_neg hla, if_neg (by omega)]
      exact reverseAux_eq_specReverseFrom ls (l :: a) b (pre ++ [l])
        (set_invariant_insert ha (by omega)) (set_invariant_keep hb (by omega))

theorem count_specReverseFrom :
    ∀ (ls pre : List String) (x : String),
      (specReverseFrom pre ls).count x =
        if pre.count x ≤ 1 ∧ 2 ≤ pre.count x + ls.count x then 1 else 0
  | [], pre, x => by
    simp only [specReverseFrom, List.count_nil, Nat.add_zero]
    split_ifs with h <;> omega
  | l :: ls, pre, x => by
    rw [specReverseFrom, count_append_singleton, if_pos rfl]
    rcases eq_or_ne x l with rfl | hx
    · by_cases hc : pre.count x + 1 = 2
      · rw [if_pos hc, List.count_cons_self, count_specReverseFrom ls (pre ++ [x]) x,
          count_append_singleton, if_pos rfl, List.count_cons_self]
        split_ifs <;> omega
      · rw [if_neg hc, count_specReverseFrom ls (pre ++ [x]) x, count_append_singleton,
          if_pos rfl, List.count_cons_self]
        split_ifs <;> omega
    · by_cases hc : pre.count l + 1 = 2
      · rw [if_pos hc, List.count_cons_of_ne hx, count_specReverseFrom ls (pre ++ [l]) x,
          count_append_singleton, if_neg hx, Nat.add_zero, List.count_cons_of_ne hx]
      · rw [if_neg hc, count_specReverseFrom ls (pre ++ [l]) x, count_append_singleton,
          if_neg hx, Nat.add_zero, List.count_cons_of_ne hx]

theorem count_reverseLines (ls : List String) (x : String) :
    (reverseLines ls).count x = if 2 ≤ ls.count x then 1 else 0 := by
  rw [reverseLines,
    reverseAux_eq_specReverseFrom ls [] [] [] (fun x => by simp) (fun x => by simp),
    count_specReverseFrom]
  simp

/-! ## Lemmas about difference and intersection -/

theorem count_diffLines (iter : List String → List String) (A B : List String)
    (hiter : List.Perm (iter (uniqueLines A)) (uniqueLines A)) (x : String) :
    (diffLines iter A B).count x = if x ∈ A ∧ x ∉ B then 1 else 0 := by
  rw [diffLines]
  by_cases hB : x ∈ B
  · rw [List.count_eq_zero_of_not_mem, if_neg (by tauto)]
    intro hmem
    have hp := (List.mem_filter.mp hmem).2
    simp [hB] at hp
  · rw [List.count_filter (by simp [hB]), hiter.count_eq, count_uniqueLines]
    by_cases hA : x ∈ A
    · rw [if_pos hA, if_pos ⟨hA, hB⟩]
    · rw [if_neg hA, if_neg (by tauto)]

theorem count_interLines (iter : List String → List String) (A B : List String)
    (hiter : List.Perm (iter (uniqueLines A)) (uniqueLines A)) (x : String) :
    (interLines iter A B).count x = if x ∈ A ∧ x ∈ B then 1 else 0 := by
  rw [interLines]
  by_cases hB : x ∈ B
  · rw [List.count_filter (by simp [hB]), hiter.count_eq, count_uniqueLines]
    by_cases hA : x ∈ A
    · rw [if_pos hA, if_pos ⟨hA, hB⟩]
    · rw [if_neg hA, if_neg (by tauto)]
  · rw [List.count_eq_zero_of_not_mem, if_neg (by tauto)]
    intro hmem
    have hp := (List.mem_filter.mp hmem).2
    simp [hB] at hp

/-! ## Model of the fallible I/O layer

`IOError` covers the three kinds of I/O failure the program can hit:
reading a named file (`fs::read_to_string`), reading standard input, and
writing to standard output (`writeln!` in `format`).  `Env` gives the
outcome of each primitive operation, plus the hash set's iteration order
`iter`; `Opts` mirrors the `structopt`-derived `Opts` struct. -/

inductive IOError where
  | fileRead (path : String)
  | stdinRead
  | stdoutWrite
deriving DecidableEq

/-- Model of the `Command` enum: `diff <path>` or `intersect <path>`. -/
inductive Command where
  | diff (path : String)
  | intersect (path : String)
deriving DecidableEq

/-- The parsed command line (`Opts` struct). -/
structure Opts where
  path : Option String
  reverse : Bool
  command : Option Command

/-- One environment of I/O outcomes: file contents by path (as line
sequences), stdin contents, the result of writing a given line sequence to
stdout, and the hash set iteration order. -/
structure Env where
  readFile : String → Except IOError (List String)
  stdin : Except IOError (List String)
  writeOut : List String → Except IOError Unit
  iter : List String → List String

/-- Model of `read_text`: read the base text from the named file if a path was
given, otherwise from standard input. -/
def read_text (env : Env) (opts : Opts) : Except IOError (List String) :=
  match opts.path with
  | some p => env.readFile p
  | none => env.stdin

/-- Monadic `print_difference`: read base text and comparison file, print the set
difference; any failed step aborts via `?`. -/
def print_difference (env : Env) (opts : Opts) (path : String) : Except IOError Unit := do
  let text ← read_text env opts
  let compare ← env.readFile path
  env.writeOut (diffLines env.iter text compare)

/-- Monadic `print_intersection`: as `print_difference` with the intersection. -/
def print_intersection (env : Env) (opts : Opts) (path : String) : Except IOError Unit := do
  let text ← read_text env opts
  let compare ← env.readFile path
  env.writeOut (interLines env.iter text compare)

/-- Monadic `print_unique`: read base text, print first occurrences, or repeated
lines when `--reverse` is set. -/
def print_unique (env : Env) (opts : Opts) : Except IOError Unit := do
  let text ← read_text env opts
  if opts.reverse then env.writeOut (reverseLines text)
  else env.writeOut (uniqueLines text)

/-- Model of `run`: dispatch on the subcommand. -/
def run (env : Env) (opts : Opts) : Except IOError Unit :=
  match opts.command with
  | some (Command.diff p) => print_difference env opts p
  | some (Command.intersect p) => print_intersection env opts p
  | none => print_unique env opts

/-- The one-line rendering of an `io::Error` (`eprintln!("{}", e)`).  The
exact text is the error's `Display` output; only its single-line shape
matters here. -/
def errLine : IOError → String
  | IOError.fileRead p => "error reading file: " ++ p
  | IOError.stdinRead => "error reading standard input"
  | IOError.stdoutWrite => "error writing standard output"

/-- Model of `WithOpts::run`: apply the fallible operation; on `Err(e)` print the
error once to stderr and exit with code `1`, otherwise exit with code `0`.
Returns (exit code, stderr lines). -/
def withOptsRun (r : Except IOError Unit) : Nat × List String :=
  match r with
  | Except.ok _ => (0, [])
  | Except.error e => (1, [errLine e])

/-- Model of `main`: `Opts::from_args().run(run)`. -/
def main_model (env : Env) (opts : Opts) : Nat × List String :=
  withOptsRun (run env opts)

/-- An environment in which every file read fails. -/
def envFail : Env :=
  { readFile := fun p => Except.error (IOError.fileRead p)
    stdin := Except.error IOError.stdinRead
    writeOut := fun _ => Except.ok ()
    iter := id }

/-- An environment in which every I/O operation succeeds. -/
def envOk : Env :=
  { readFile := fun _ => Except.ok ["a", "b", "a"]
    stdin := Except.ok []
    writeOut := fun _ => Except.ok ()
    iter := id }

/-- A command line naming a base file and no subcommand. -/
def optsBase : Opts := { path := some "base.txt", reverse := false, command := none }

/-! ## The claims -/

/-- C1: Unique Mode without the reverse flag emits exactly the first
occurrence of each distinct line, in the order of first occurrence in the
input: the output equals the spec-side first-occurrence filter, each input
line appears exactly once (so later occurrences are suppressed), and the
output is a subsequence of the input (original order). -/
theorem unique_mode_first_occurrences (ls : List String) :
    uniqueLines ls = specUnique ls ∧
      (∀ x, (uniqueLines ls).count x = if x ∈ ls then 1 else 0) ∧
      List.Sublist (uniqueLines ls) ls :=
  ⟨uniqueAux_eq_specUniqueFrom ls [] [] (fun _ => Iff.rfl),
   count_uniqueLines ls, uniqueAux_sublist ls []⟩

/-- C2: Unique Mode with the reverse flag emits exactly the lines of
multiplicity at least 2, each exactly once, at the position of its second
occurrence: the output equals the spec-side second-occurrence filter, and
each line's output count is 1 when its input multiplicity is at least 2
(even for three or more occurrences) and 0 otherwise. -/
theorem reverse_mode_repeated_lines (ls : List String) :
    reverseLines ls = specReverse ls ∧
      ∀ x, (reverseLines ls).count x = if 2 ≤ ls.count x then 1 else 0 :=
  ⟨reverseAux_eq_specReverseFrom ls [] [] [] (fun x => by simp) (fun x => by simp),
   count_reverseLines ls⟩

/-- C3: for any hash iteration order (any permutation of the base set's
contents), Difference Mode emits, as a set, exactly the lines in `A` that
are absent from `B`, each exactly once regardless of repetition in `A`. -/
theorem difference_mode_set (iter : List String → List String) (A B : List String)
    (hiter : List.Perm (iter (uniqueLines A)) (uniqueLines A)) :
    (∀ x, x ∈ diffLines iter A B ↔ x ∈ A ∧ x ∉ B) ∧
      ∀ x, (diffLines iter A B).count x = if x ∈ A ∧ x ∉ B then 1 else 0 := by
  refine ⟨fun x => ?_, count_diffLines iter A B hiter⟩
  rw [← List.count_pos_iff, count_diffLines iter A B hiter]
  split_ifs with h <;> simp [h]

/-- Witness for C3 on the spec's concrete scenario 3. -/
theorem difference_mode_set_witness :
    (diffLines id ["x", "y", "z"] ["y", "z", "w"]).count "x" = 1 ∧
      (diffLines id ["x", "y", "z"] ["y", "z", "w"]).count "y" = 0 := by
  have h := difference_mode_set id ["x", "y", "z"] ["y", "z", "w"] (List.Perm.refl _)
  rw [h.2 "x", h.2 "y"]
  constructor <;> decide

/-- C4: for any hash iteration order, Intersection Mode emits, as a set,
exactly the lines present in both `A` and `B`, each exactly once. -/
theorem intersection_mode_set (iter : List String → List String) (A B : List String)
    (hiter : List.Perm (iter (uniqueLines A)) (uniqueLines A)) :
    (∀ x, x ∈ interLines iter A B ↔ x ∈ A ∧ x ∈ B) ∧
      ∀ x, (interLines iter A B).count x = if x ∈ A ∧ x ∈ B then 1 else 0 := by
  refine ⟨fun x => ?_, count_interLines iter A B hiter⟩
  rw [← List.count_pos_iff, count_interLines iter A B hiter]
  split_ifs with h <;> simp [h]

/-- Witness for C4 on the spec's concrete scenario 4. -/
theorem intersection_mode_set_witness :
    (interLines id ["x", "y", "z"] ["y", "z", "w"]).count "y" = 1 ∧
      (interLines id ["x", "y", "z"] ["y", "z", "w"]).count "x" = 0 := by
  have h := intersection_mode_set id ["x", "y", "z"] ["y", "z", "w"] (List.Perm.refl _)
  rw [h.2 "y", h.2 "x"]
  constructor <;> decide

/-- C5: Unique Mode (non-reverse) is idempotent: its output is a fixed
point of the unique filter. -/
theorem unique_mode_idempotent (ls : List String) :
    uniqueLines (uniqueLines ls) = uniqueLines ls :=
  uniqueAux_of_nodup (uniqueLines ls) [] (nodup_uniqueLines ls)
    (fun x _ => List.not_mem_nil x)

/-- C6: on the same base and comparison inputs, the lines emitted by
Difference Mode and by Intersection Mode are disjoint (their list
intersection is empty), for any hash iteration orders of the two runs. -/
theorem difference_intersection_disjoint (iter₁ iter₂ : List String → List String)
    (A B : List String) :
    diffLines iter₁ A B ∩ interLines iter₂ A B = [] := by
  rw [List.eq_nil_iff_forall_not_mem]
  intro x hx
  have h₁ := (List.mem_filter.mp (List.mem_of_mem_inter_left hx)).2
  have h₂ := (List.mem_filter.mp (List.mem_of_mem_inter_right hx)).2
  simp at h₁ h₂
  exact h₁ h₂

/-- C7: for a fixed set implementation (a fixed hash iteration order
`iter`) and fixed inputs, Difference Mode and Intersection Mode are
deterministic: any two runs on identical base and comparison inputs
produce identical output line sequences. -/
theorem diff_intersect_deterministic (iter : List String → List String) (A B : List String)
    (o₁ o₂ p₁ p₂ : List String)
    (h₁ : o₁ = diffLines iter A B) (h₂ : o₂ = diffLines iter A B)
    (h₃ : p₁ = interLines iter A B) (h₄ : p₂ = interLines iter A B) :
    o₁ = o₂ ∧ p₁ = p₂ :=
  ⟨h₁.trans h₂.symm, h₃.trans h₄.symm⟩

/-- Witness for C7 at a concrete input. -/
theorem diff_intersect_deterministic_witness :
    diffLines id ["x"] ["y"] = diffLines id ["x"] ["y"] ∧
      interLines id ["x"] ["y"] = interLines id ["x"] ["y"] :=
  diff_intersect_deterministic id ["x"] ["y"] _ _ _ _ rfl rfl rfl rfl

/-- C8: in every mode two lines are treated as equal exactly when their
content is identical: string equality is equality of the underlying
character data (no normalization), and in each mode two input lines are
merged exactly when they are equal as strings, never when they are
distinct. -/
theorem lines_compared_by_exact_content (x y : String) :
    (x = y ↔ x.data = y.data) ∧
      uniqueLines [x, y] = (if x = y then [x] else [x, y]) ∧
      reverseLines [x, y] = (if x = y then [x] else []) ∧
      diffLines id [x] [y] = (if x = y then [] else [x]) ∧
      interLines id [x] [y] = (if x = y then [x] else []) := by
  rcases eq_or_ne x y with rfl | h
  · refine ⟨⟨fun _ => rfl, fun _ => rfl⟩, ?_, ?_, ?_, ?_⟩ <;>
      simp [uniqueLines, uniqueAux, reverseLines, reverseAux, diffLines, interLines]
  · refine ⟨⟨fun hxy => congrArg String.data hxy, fun hd => ?_⟩, ?_, ?_, ?_, ?_⟩
    · cases x; cases y; cases hd; rfl
    all_goals
      simp [uniqueLines, uniqueAux, reverseLines, reverseAux, diffLines, interLines,
        h, Ne.symm h]

/-- C9: if the operation selected by the command line fails with an I/O
error, the process prints exactly one error line to the error stream and
exits with code 1; if it succeeds, it prints nothing to the error stream
and exits with code 0. -/
theorem run_error_exit_codes (env : Env) (opts : Opts) :
    (∀ e, run env opts = Except.error e → main_model env opts = (1, [errLine e])) ∧
      (∀ u, run env opts = Except.ok u → main_model env opts = (0, [])) := by
  constructor
  · intro e he
    simp only [main_model, he, withOptsRun]
  · intro u hu
    simp only [main_model, hu, withOptsRun]

/-- Witness for C9: a failing base-file read exits 1 with one error line;
a fully successful run exits 0 with none. -/
theorem run_error_exit_codes_witness :
    main_model envFail optsBase = (1, [errLine (IOError.fileRead "base.txt")]) ∧
      main_model envOk optsBase = (0, []) :=
  ⟨(run_error_exit_codes envFail optsBase).1 (IOError.fileRead "base.txt") rfl,
   (run_error_exit_codes envOk optsBase).2 () rfl⟩

/-- C10: in Difference Mode and Intersection Mode the reverse flag has no
effect: with the same environment, base path and subcommand, running with
the flag set gives the same result as with it unset. -/
theorem reverse_flag_ignored_in_diff_intersect (env : Env) (p : Option String) (c : Command) :
    run env { path := p, reverse := true, command := some c }
      = run env { path := p, reverse := false, command := some c } := by
  cases c <;> rfl

end SetFilter
